import Mathlib

/-!
Verification development for the OCR CAPTCHA solver repository.

The model below is a shallow embedding of the recognition pipeline:

  * `src/ocr/recognize.js` — `generateCorrectionVariants`,
    `recognizeWithTesseract` (collect per-strategy results, filter cleaned
    texts shorter than 3, sort by exact-length-4 then confidence, truncate
    the winner to 4 characters, attach confusion variants) and
    `recognizeText`.
  * `src/index.js` — the POST handler: run the preprocessing strategies,
    keep the OCR outcome with strictly highest confidence, apply the
    W→V smart correction, validate the final length, and answer.

The OCR primitive (Tesseract) is external: its per-attempt outcome is an
input of the model, `Option RecognitionResult` — `none` when the attempt
threw. Confidence, a JS number in [0,100], is modelled as `Rat`; JS string
operations (`toUpperCase`, `replace` with a global single-character
pattern, `includes`, `substring`) are modelled on ASCII character lists,
which is exact for the alphanumeric whitelisted texts the engine returns.
Strings are their character lists (`String.mk`).  The diagnostic
`allResults` field (a formatted log string list no consumer reads) is not
modelled.
-/

instance {ε α : Type} [DecidableEq ε] [DecidableEq α] : DecidableEq (Except ε α) := fun a b =>
  match a, b with
  | .ok x, .ok y => decidable_of_iff (x = y) (by simp)
  | .error x, .error y => decidable_of_iff (x = y) (by simp)
  | .ok _, .error _ => isFalse (by simp)
  | .error _, .ok _ => isFalse (by simp)

/-- Character is one of the CAPTCHA token characters A–Z or 0–9,
the class kept by the cleaning regex `[^A-Z0-9]`. -/
def isTokenChar (c : Char) : Bool :=
  decide ((65 ≤ c.toNat ∧ c.toNat ≤ 90) ∨ (48 ≤ c.toNat ∧ c.toNat ≤ 57))

/-- JS `String.prototype.toUpperCase` on one character, restricted to the
ASCII range (the only characters the pipeline ever keeps). -/
def jsToUpper (c : Char) : Char :=
  if 97 ≤ c.toNat ∧ c.toNat ≤ 122 then Char.ofNat (c.toNat - 32) else c

/-- Cleaning rule of the recognizer
(uppercase, then strip every character outside A-Z0-9; src/ocr/recognize.js). -/
def cleanRawText (s : String) : String :=
  ⟨(s.data.map jsToUpper).filter isTokenChar⟩

/-- JS `text.replace(/a/g, b)` for single characters a, b. -/
def jsReplaceAll (a b : Char) (s : String) : String :=
  ⟨s.data.map fun c => if c = a then b else c⟩

/-- JS `text.includes(c)` for a single character. -/
def jsIncludes (s : String) (c : Char) : Bool :=
  s.data.contains c

/-- Helper of `dedupFirst`: keep each value not seen before, in order. -/
def dedupFirstAux (seen : List String) : List String → List String
  | [] => []
  | x :: xs => if seen.contains x then dedupFirstAux seen xs else x :: dedupFirstAux (x :: seen) xs

/-- First-occurrence deduplication, the semantics of `[...new Set(variants)]`
(JS Set keeps insertion order and the first occurrence of each value). -/
def dedupFirst (l : List String) : List String :=
  dedupFirstAux [] l

/-- Confusion substitutions of `generateCorrectionVariants`
(src/ocr/recognize.js): the guard character and its replacement, in source
order W→V, V→W, 0→O, O→0, 1→I, I→1. -/
def confusionPairs : List (Char × Char) :=
  [('W', 'V'), ('V', 'W'), ('0', 'O'), ('O', '0'), ('1', 'I'), ('I', '1')]

/-- One `if (text.includes(a)) variants.push(text.replace(/a/g, b))` step
of `generateCorrectionVariants`. -/
def variantStep (text : String) (vs : List String) (p : Char × Char) : List String :=
  if jsIncludes text p.1 then vs ++ [jsReplaceAll p.1 p.2 text] else vs

/-- Function `generateCorrectionVariants` (src/ocr/recognize.js): start from the
text itself, for each confusion pair whose guard occurs push the global
replacement, and deduplicate keeping first occurrences. -/
def generateCorrectionVariants (text : String) : List String :=
  dedupFirst (confusionPairs.foldl (variantStep text) [text])

/-- Raw output of one OCR invocation (`recognizeWithConfig` destructures
`{text, confidence}`). -/
structure RecognitionResult where
  text : String
  confidence : Rat
deriving DecidableEq

/-- One (strategy, outcome) pair of the per-rendering loop: the strategy
name and the outcome of the primitive, `none` when the invocation threw. -/
structure StrategyAttempt where
  name : String
  result : Option RecognitionResult
deriving DecidableEq

/-- A surviving candidate pushed onto `results`
(`{text: cleaned, confidence: confidence || 0, mode: strategy.name}`). -/
structure OCRCandidate where
  text : String
  confidence : Rat
  mode : String
deriving DecidableEq

/-- The per-strategy collection loop of `recognizeWithTesseract`: clean
the text of each successful attempt and keep it when at least 3 characters
survive; failed attempts contribute nothing. -/
def collectResults (attempts : List StrategyAttempt) : List OCRCandidate :=
  attempts.filterMap fun a =>
    a.result.bind fun r =>
      let cleaned := cleanRawText r.text
      if 3 ≤ cleaned.length then some ⟨cleaned, r.confidence, a.name⟩ else none

/-- Exact-length flag of a candidate (`a.text.length === 4 ? 1 : 0`). -/
def is4 (c : OCRCandidate) : Bool :=
  c.text.length == 4

/-- Candidate `a` sorts strictly before `b` under the source comparator
(prefer length exactly 4, then higher confidence). -/
def betterB (a b : OCRCandidate) : Bool :=
  (is4 a && !is4 b) || ((is4 a == is4 b) && decide (b.confidence < a.confidence))

/-- Stable insertion of a candidate: `c` passes over exactly the earlier
candidates that sort strictly before it. -/
def insertByRank (c : OCRCandidate) : List OCRCandidate → List OCRCandidate
  | [] => [c]
  | b :: bs => if betterB b c then b :: insertByRank c bs else c :: b :: bs

/-- The call `results.sort((a, b) => ...)` with the source comparator; JS sort is
stable, which stable insertion sort realizes. -/
def sortByRank (l : List OCRCandidate) : List OCRCandidate :=
  l.foldr insertByRank []

/-- Selection `results[0]` after the sort, `none` when `results` is empty (the
source throws before sorting in that case; the sort preserves emptiness,
so matching the sorted head is equivalent). -/
def selectBest (l : List OCRCandidate) : Option OCRCandidate :=
  (sortByRank l).head?

/-- Value returned by `recognizeWithTesseract` on success. -/
structure OcrOutcome where
  text : String
  variants : List String
  confidence : Rat
deriving DecidableEq

/-- Truncation of the winner:
`if (finalText.length > 4) finalText = finalText.substring(0, 4)`. -/
def truncate4 (s : String) : String :=
  if 4 < s.length then (⟨s.data.take 4⟩ : String) else s

/-- Function `recognizeWithTesseract` (src/ocr/recognize.js): collect surviving
candidates over the strategies (`results`), throw `No valid OCR results`
when none survive, otherwise sort, take the first, truncate its text to
the first 4 characters when longer, and attach the confusion variants of
the final text. -/
def recognizeWithTesseract (attempts : List StrategyAttempt) : Except String OcrOutcome :=
  match selectBest (collectResults attempts) with
  | none => .error "No valid OCR results"
  | some best =>
    .ok { text := truncate4 best.text
          variants := generateCorrectionVariants (truncate4 best.text)
          confidence := best.confidence }

/-- Value returned by `recognizeText` on success (field renaming of
`OcrOutcome`, as in src/ocr/recognize.js). -/
structure OcrResult where
  solution : String
  alternatives : List String
  confidence : Rat
deriving DecidableEq

/-- Function `recognizeText` (src/ocr/recognize.js): repackage the
`recognizeWithTesseract` outcome. -/
def recognizeText (attempts : List StrategyAttempt) : Except String OcrResult :=
  (recognizeWithTesseract attempts).map fun r =>
    { solution := r.text, alternatives := r.variants, confidence := r.confidence }

/-- Contribution of one preprocessing strategy in the handler:
`.error` when preprocessing threw, otherwise the strategy attempts the
OCR pass of the rendering produced. -/
def runRendering (r : Except String (List StrategyAttempt)) : Except String OcrResult :=
  r.bind recognizeText

/-- Best-strategy loop of the handler (src/index.js lines 103–129):
starting from `bestOcrResult = null`, `bestConfidence = 0`, keep the OCR
result whose confidence is strictly greater than the best so far; failed
strategies leave the accumulator unchanged. -/
def pickStep (acc : Option OcrResult × Rat) (o : Except String OcrResult) :
    Option OcrResult × Rat :=
  match o with
  | .error _ => acc
  | .ok res => if acc.2 < res.confidence then (some res, res.confidence) else acc

/-- Accumulated best over the strategy loop, starting from
`bestOcrResult = null`, `bestConfidence = 0`. -/
def pickBestRendering (outs : List (Except String OcrResult)) : Option OcrResult :=
  (outs.foldl pickStep ((none : Option OcrResult), (0 : Rat))).1

/-- Smart correction of the handler (src/index.js lines 147–154): when the
solution contains `W`, has length 4, and its all-W→V substitution is
listed among the alternatives, replace it by that substitution. -/
def smartCorrect (solution : String) (alternatives : List String) : String :=
  if jsIncludes solution 'W' && solution.length == 4 then
    let versionWithV := jsReplaceAll 'W' 'V' solution
    if alternatives.contains versionWithV then versionWithV else solution
  else solution

/-- Character is an uppercase letter A–Z (the class of `/[A-Z]{4}/`). -/
def isAZ (c : Char) : Bool :=
  decide (65 ≤ c.toNat ∧ c.toNat ≤ 90)

/-- Leftmost match of `/[A-Z]{4}/`: the first run of four consecutive
uppercase letters, if any. -/
def firstAZ4 : List Char → Option String
  | [] => none
  | a :: rest =>
    match rest with
    | b :: c :: d :: _ =>
      if isAZ a && isAZ b && isAZ c && isAZ d then some ⟨[a, b, c, d]⟩
      else firstAZ4 rest
    | _ => none

/-- Strict length validation of the handler (src/index.js lines 156–180):
lengths in [3,6] pass unchanged; longer solutions are replaced by their
first four-uppercase-letter run or rejected (422); shorter ones are
rejected (422). -/
def validateLength (solution : String) : Except String String :=
  if solution.length < 3 ∨ 6 < solution.length then
    if 6 < solution.length then
      match firstAZ4 solution.data with
      | some m => .ok m
      | none => .error "Invalid OCR result: solution too long"
    else .error "Invalid OCR result: solution too short"
  else .ok solution

/-- The Solution of the data model in the spec: final text together with the
confidence and alternatives the handler computed for it. -/
structure Solution where
  text : String
  confidence : Rat
  alternatives : List String
deriving DecidableEq

/-- The whole request pipeline of the POST handler (src/index.js): run
every preprocessing strategy, keep the strictly-highest-confidence OCR
result, throw `All preprocessing strategies failed` when none succeeded,
apply the smart correction, validate the length, and answer. The input is
the per-rendering OCR material: for each preprocessing strategy either
`.error` (preprocessing threw) or its list of per-strategy OCR attempts. -/
def solve (renderings : List (Except String (List StrategyAttempt))) : Except String Solution :=
  match pickBestRendering (renderings.map runRendering) with
  | none => .error "All preprocessing strategies failed"
  | some best =>
    match validateLength (smartCorrect best.solution best.alternatives) with
    | .ok finalText => .ok ⟨finalText, best.confidence, best.alternatives⟩
    | .error e => .error e

/-- Flattened surviving candidates across the whole request, every
rendering and every strategy. -/
def flattenedCandidates (renderings : List (Except String (List StrategyAttempt))) :
    List OCRCandidate :=
  renderings.foldr
    (fun r acc =>
      (match r with
       | .ok atts => collectResults atts
       | .error _ => []) ++ acc)
    []

/-- Modelled from the spec: the Selector contract `select` ranks the
flattened candidate set of the whole request by the exact-length-first
comparator and picks the winner. This is the spec-side selector used to
compare the implementation against; the implementation selects per
rendering instead. -/
def specSelectAcrossRequest (renderings : List (Except String (List StrategyAttempt))) :
    Option OCRCandidate :=
  selectBest (flattenedCandidates renderings)

/-! ### Helper lemmas: characters, cleaning, replacement -/

theorem strLength_mk (l : List Char) : (⟨l⟩ : String).length = l.length := rfl

theorem strData_mk (l : List Char) : (⟨l⟩ : String).data = l := rfl

theorem jsToUpper_of_token {c : Char} (h : isTokenChar c = true) : jsToUpper c = c := by
  unfold isTokenChar at h
  have h' := of_decide_eq_true h
  unfold jsToUpper
  rw [if_neg]
  omega

theorem all_token_cleanRawText (s : String) :
    (cleanRawText s).data.all isTokenChar = true := by
  rw [List.all_eq_true]
  intro a ha
  exact (List.mem_filter.1 ha).2

theorem cleanRawText_of_token {s : String} (h : s.data.all isTokenChar = true) :
    cleanRawText s = s := by
  have h' := List.all_eq_true.1 h
  unfold cleanRawText
  have hm : ∀ l : List Char, (∀ a ∈ l, isTokenChar a = true) → l.map jsToUpper = l := by
    intro l hl
    induction l with
    | nil => rfl
    | cons x xs ih =>
      simp only [List.map_cons]
      rw [jsToUpper_of_token (hl x (List.mem_cons_self _ _)),
        ih fun a ha => hl a (List.mem_cons_of_mem _ ha)]
  rw [hm s.data h', List.filter_eq_self.2 h']

theorem length_jsReplaceAll (a b : Char) (s : String) :
    (jsReplaceAll a b s).length = s.length := by
  unfold jsReplaceAll
  rw [strLength_mk, List.length_map]
  rfl

theorem all_token_jsReplaceAll {a b : Char} (hb : isTokenChar b = true) {s : String}
    (h : s.data.all isTokenChar = true) :
    (jsReplaceAll a b s).data.all isTokenChar = true := by
  have h' := List.all_eq_true.1 h
  rw [List.all_eq_true]
  intro x hx
  obtain ⟨c, hc, hcx⟩ := List.mem_map.1 hx
  by_cases hca : c = a
  · rw [if_pos hca] at hcx
    rw [← hcx]
    exact hb
  · rw [if_neg hca] at hcx
    rw [← hcx]
    exact h' c hc

/-! ### Helper lemmas: first-occurrence deduplication -/

theorem mem_dedupFirstAux {v : String} :
    ∀ (l seen : List String), v ∈ dedupFirstAux seen l ↔ v ∈ l ∧ v ∉ seen := by
  intro l
  induction l with
  | nil => intro seen; simp [dedupFirstAux]
  | cons x xs ih =>
    intro seen
    unfold dedupFirstAux
    by_cases hx : seen.contains x = true
    · have hxs : x ∈ seen := by simpa using hx
      rw [if_pos hx, ih]
      constructor
      · rintro ⟨h1, h2⟩
        exact ⟨List.mem_cons_of_mem _ h1, h2⟩
      · rintro ⟨h1, h2⟩
        rcases List.mem_cons.1 h1 with h | h
        · exact absurd (h ▸ hxs) h2
        · exact ⟨h, h2⟩
    · have hxs : x ∉ seen := by simpa using hx
      rw [if_neg hx]
      constructor
      · intro h
        rcases List.mem_cons.1 h with h | h
        · exact ⟨h ▸ List.mem_cons_self x xs, h ▸ hxs⟩
        · obtain ⟨h1, h2⟩ := (ih (x :: seen)).1 h
          exact ⟨List.mem_cons_of_mem _ h1, fun hv => h2 (List.mem_cons_of_mem _ hv)⟩
      · rintro ⟨h1, h2⟩
        rcases List.mem_cons.1 h1 with h | h
        · exact h ▸ List.mem_cons_self _ _
        · by_cases hvx : v = x
          · exact hvx ▸ List.mem_cons_self _ _
          · exact List.mem_cons_of_mem _
              ((ih (x :: seen)).2 ⟨h, fun hv => by
                rcases List.mem_cons.1 hv with h' | h'
                · exact hvx h'
                · exact h2 h'⟩)

theorem nodup_dedupFirstAux :
    ∀ (l seen : List String), (dedupFirstAux seen l).Nodup := by
  intro l
  induction l with
  | nil => intro seen; simp [dedupFirstAux]
  | cons x xs ih =>
    intro seen
    unfold dedupFirstAux
    by_cases hx : seen.contains x = true
    · rw [if_pos hx]; exact ih seen
    · rw [if_neg hx]
      rw [List.nodup_cons]
      refine ⟨fun hmem => ?_, ih (x :: seen)⟩
      exact ((mem_dedupFirstAux xs (x :: seen)).1 hmem).2 (List.mem_cons_self _ _)

theorem mem_dedupFirst {v : String} {l : List String} : v ∈ dedupFirst l ↔ v ∈ l := by
  unfold dedupFirst
  rw [mem_dedupFirstAux]
  simp

theorem nodup_dedupFirst (l : List String) : (dedupFirst l).Nodup :=
  nodup_dedupFirstAux l []

/-! ### Helper lemmas: correction variants -/

theorem mem_foldl_variantStep (text : String) :
    ∀ (pairs : List (Char × Char)) (init : List String) (v : String),
      v ∈ pairs.foldl (variantStep text) init →
      v ∈ init ∨ ∃ p ∈ pairs, v = jsReplaceAll p.1 p.2 text := by
  intro pairs
  induction pairs with
  | nil => intro init v hv; exact Or.inl hv
  | cons p ps ih =>
    intro init v hv
    rw [List.foldl_cons] at hv
    rcases ih _ v hv with h | ⟨q, hq, hqv⟩
    · unfold variantStep at h
      by_cases hc : jsIncludes text p.1 = true
      · rw [if_pos hc] at h
        rcases List.mem_append.1 h with h | h
        · exact Or.inl h
        · exact Or.inr ⟨p, List.mem_cons_self _ _, by simpa using h⟩
      · rw [if_neg hc] at h
        exact Or.inl h
    · exact Or.inr ⟨q, List.mem_cons_of_mem _ hq, hqv⟩

theorem mem_init_foldl_variantStep (text : String) :
    ∀ (pairs : List (Char × Char)) (init : List String) (v : String),
      v ∈ init → v ∈ pairs.foldl (variantStep text) init := by
  intro pairs
  induction pairs with
  | nil => intro init v hv; exact hv
  | cons p ps ih =>
    intro init v hv
    rw [List.foldl_cons]
    apply ih
    unfold variantStep
    by_cases hc : jsIncludes text p.1 = true
    · rw [if_pos hc]; exact List.mem_append_left _ hv
    · rw [if_neg hc]; exact hv

theorem mem_generateCorrectionVariants_elim {v text : String}
    (h : v ∈ generateCorrectionVariants text) :
    v = text ∨ ∃ p ∈ confusionPairs, v = jsReplaceAll p.1 p.2 text := by
  unfold generateCorrectionVariants at h
  rcases mem_foldl_variantStep text confusionPairs [text] v (mem_dedupFirst.1 h) with h | h
  · exact Or.inl (by simpa using h)
  · exact Or.inr h

theorem self_mem_generateCorrectionVariants (text : String) :
    text ∈ generateCorrectionVariants text := by
  unfold generateCorrectionVariants
  exact mem_dedupFirst.2
    (mem_init_foldl_variantStep text confusionPairs [text] text (List.mem_cons_self _ _))

theorem length_mem_generateCorrectionVariants {v text : String}
    (h : v ∈ generateCorrectionVariants text) : v.length = text.length := by
  rcases mem_generateCorrectionVariants_elim h with h | ⟨p, _, hv⟩
  · rw [h]
  · rw [hv, length_jsReplaceAll]

theorem all_token_mem_generateCorrectionVariants {v text : String}
    (htext : text.data.all isTokenChar = true) (h : v ∈ generateCorrectionVariants text) :
    v.data.all isTokenChar = true := by
  have hpairs : ∀ p ∈ confusionPairs, isTokenChar p.2 = true := by decide
  rcases mem_generateCorrectionVariants_elim h with h | ⟨p, hp, hv⟩
  · rw [h]; exact htext
  · rw [hv]; exact all_token_jsReplaceAll (hpairs p hp) htext

theorem nodup_generateCorrectionVariants (text : String) :
    (generateCorrectionVariants text).Nodup :=
  nodup_dedupFirst _

/-! ### Helper lemmas: the ranking comparator and the stable sort -/

theorem betterB_irrefl (c : OCRCandidate) : betterB c c = false := by
  simp [betterB]

theorem betterB_asymm {a b : OCRCandidate} (h : betterB a b = true) : betterB b a = false := by
  unfold betterB at h ⊢
  cases h4a : is4 a <;> cases h4b : is4 b <;> simp_all <;> linarith

theorem betterB_neg_trans {a b c : OCRCandidate}
    (hab : betterB a b = false) (hbc : betterB b c = false) : betterB a c = false := by
  unfold betterB at hab hbc ⊢
  cases h4a : is4 a <;> cases h4b : is4 b <;> cases h4c : is4 c <;> simp_all <;> linarith

theorem mem_insertByRank {d c : OCRCandidate} :
    ∀ l : List OCRCandidate, d ∈ insertByRank c l ↔ d = c ∨ d ∈ l := by
  intro l
  induction l with
  | nil => simp [insertByRank]
  | cons b bs ih =>
    unfold insertByRank
    by_cases hb : betterB b c = true
    · rw [if_pos hb]
      constructor
      · intro h
        rcases List.mem_cons.1 h with h | h
        · exact Or.inr (h ▸ List.mem_cons_self _ _)
        · rcases ih.1 h with h | h
          · exact Or.inl h
          · exact Or.inr (List.mem_cons_of_mem _ h)
      · intro h
        rcases h with h | h
        · exact List.mem_cons_of_mem _ (ih.2 (Or.inl h))
        · rcases List.mem_cons.1 h with h | h
          · exact h ▸ List.mem_cons_self _ _
          · exact List.mem_cons_of_mem _ (ih.2 (Or.inr h))
    · rw [if_neg hb]
      simp [List.mem_cons]

theorem sortByRank_cons (x : OCRCandidate) (xs : List OCRCandidate) :
    sortByRank (x :: xs) = insertByRank x (sortByRank xs) := rfl

theorem mem_sortByRank {d : OCRCandidate} :
    ∀ l : List OCRCandidate, d ∈ sortByRank l ↔ d ∈ l := by
  intro l
  induction l with
  | nil => simp [sortByRank]
  | cons x xs ih =>
    rw [sortByRank_cons, mem_insertByRank, ih, List.mem_cons]

theorem insertByRank_ne_nil (c : OCRCandidate) (l : List OCRCandidate) :
    insertByRank c l ≠ [] := by
  cases l with
  | nil => simp [insertByRank]
  | cons b bs =>
    unfold insertByRank
    by_cases hb : betterB b c = true
    · rw [if_pos hb]; simp
    · rw [if_neg hb]; simp

theorem sortByRank_eq_nil {l : List OCRCandidate} (h : sortByRank l = []) : l = [] := by
  cases l with
  | nil => rfl
  | cons x xs => exact absurd h (insertByRank_ne_nil x (sortByRank xs))

theorem sortByRank_head_max :
    ∀ (l : List OCRCandidate) (c : OCRCandidate), (sortByRank l).head? = some c →
      c ∈ l ∧ ∀ d ∈ l, betterB d c = false := by
  intro l
  induction l with
  | nil => intro c h; simp [sortByRank] at h
  | cons x xs ih =>
    intro c h
    rw [sortByRank_cons] at h
    cases hs : sortByRank xs with
    | nil =>
      have hxs : xs = [] := sortByRank_eq_nil hs
      rw [hs] at h
      unfold insertByRank at h
      rw [List.head?_cons, Option.some_inj] at h
      subst hxs
      refine ⟨?_, ?_⟩
      · rw [← h]; exact List.mem_cons_self _ _
      · intro d hd
        rcases List.mem_cons.1 hd with hdx | hdx
        · rw [hdx, ← h]; exact betterB_irrefl x
        · simp at hdx
    | cons b bs =>
      rw [hs] at h
      have ihb := ih b (by rw [hs]; rfl)
      unfold insertByRank at h
      by_cases hbx : betterB b x = true
      · rw [if_pos hbx, List.head?_cons, Option.some_inj] at h
        refine ⟨?_, ?_⟩
        · rw [← h]; exact List.mem_cons_of_mem _ ihb.1
        · intro d hd
          rcases List.mem_cons.1 hd with hdx | hdx
          · rw [hdx, ← h]; exact betterB_asymm hbx
          · rw [← h]; exact ihb.2 d hdx
      · rw [if_neg hbx, List.head?_cons, Option.some_inj] at h
        have hbx' : betterB b x = false := by
          cases hv : betterB b x
          · rfl
          · exact absurd hv hbx
        refine ⟨?_, ?_⟩
        · rw [← h]; exact List.mem_cons_self _ _
        · intro d hd
          rcases List.mem_cons.1 hd with hdx | hdx
          · rw [hdx, ← h]; exact betterB_irrefl x
          · rw [← h]; exact betterB_neg_trans (ihb.2 d hdx) hbx'

/-! ### Helper lemmas: candidate collection and the per-rendering recognizer -/

theorem mem_collectResults {c : OCRCandidate} {atts : List StrategyAttempt}
    (h : c ∈ collectResults atts) :
    ∃ r : RecognitionResult, c.text = cleanRawText r.text ∧ c.confidence = r.confidence ∧
      3 ≤ c.text.length := by
  unfold collectResults at h
  obtain ⟨a, _, hfa⟩ := List.mem_filterMap.1 h
  cases hr : a.result with
  | none => rw [hr] at hfa; simp at hfa
  | some r =>
    rw [hr] at hfa
    replace hfa :
        (if 3 ≤ (cleanRawText r.text).length then
          some (⟨cleanRawText r.text, r.confidence, a.name⟩ : OCRCandidate)
         else none) = some c := hfa
    by_cases h3 : 3 ≤ (cleanRawText r.text).length
    · rw [if_pos h3] at hfa
      cases hfa
      exact ⟨r, rfl, rfl, h3⟩
    · rw [if_neg h3] at hfa
      cases hfa

theorem collectResults_props {c : OCRCandidate} {atts : List StrategyAttempt}
    (h : c ∈ collectResults atts) :
    c.text.data.all isTokenChar = true ∧ 3 ≤ c.text.length := by
  obtain ⟨r, hct, _, h3⟩ := mem_collectResults h
  refine ⟨?_, h3⟩
  rw [hct]
  exact all_token_cleanRawText r.text

theorem recognizeWithTesseract_ok {attempts : List StrategyAttempt} {out : OcrOutcome}
    (h : recognizeWithTesseract attempts = .ok out) :
    ∃ best, selectBest (collectResults attempts) = some best ∧
      best ∈ collectResults attempts ∧
      (∀ d ∈ collectResults attempts, betterB d best = false) ∧
      out.text = truncate4 best.text ∧
      out.variants = generateCorrectionVariants out.text ∧
      out.confidence = best.confidence := by
  unfold recognizeWithTesseract at h
  cases hsel : selectBest (collectResults attempts) with
  | none => rw [hsel] at h; simp at h
  | some best =>
    rw [hsel] at h
    have hsm := sortByRank_head_max (collectResults attempts) best hsel
    have hmem : best ∈ collectResults attempts := hsm.1
    injection h with h'
    subst h'
    exact ⟨best, rfl, hmem, hsm.2, rfl, rfl, rfl⟩

theorem length_truncate4_le (s : String) : (truncate4 s).length ≤ 4 := by
  unfold truncate4
  by_cases h : 4 < s.length
  · rw [if_pos h, strLength_mk, List.length_take]
    omega
  · rw [if_neg h]
    omega

theorem length_truncate4_ge {s : String} (h3 : 3 ≤ s.length) : 3 ≤ (truncate4 s).length := by
  unfold truncate4
  by_cases h : 4 < s.length
  · rw [if_pos h, strLength_mk, List.length_take]
    have : s.length = s.data.length := rfl
    omega
  · rw [if_neg h]
    exact h3

theorem all_token_truncate4 {s : String} (h : s.data.all isTokenChar = true) :
    (truncate4 s).data.all isTokenChar = true := by
  unfold truncate4
  by_cases h4 : 4 < s.length
  · rw [if_pos h4, strData_mk, List.all_eq_true]
    intro a ha
    exact List.all_eq_true.1 h a (List.mem_of_mem_take ha)
  · rw [if_neg h4]
    exact h

theorem recognizeWithTesseract_ok_props {attempts : List StrategyAttempt} {out : OcrOutcome}
    (h : recognizeWithTesseract attempts = .ok out) :
    3 ≤ out.text.length ∧ out.text.length ≤ 4 ∧ out.text.data.all isTokenChar = true ∧
      out.variants = generateCorrectionVariants out.text := by
  obtain ⟨best, _, hmem, _, htext, hvar, _⟩ := recognizeWithTesseract_ok h
  obtain ⟨htok, h3⟩ := collectResults_props hmem
  rw [htext]
  exact ⟨length_truncate4_ge h3, length_truncate4_le _, all_token_truncate4 htok, htext ▸ hvar⟩

theorem recognizeText_ok_props {attempts : List StrategyAttempt} {res : OcrResult}
    (h : recognizeText attempts = .ok res) :
    3 ≤ res.solution.length ∧ res.solution.length ≤ 4 ∧
      res.solution.data.all isTokenChar = true ∧
      res.alternatives = generateCorrectionVariants res.solution := by
  unfold recognizeText at h
  cases hout : recognizeWithTesseract attempts with
  | error e => rw [hout] at h; simp [Except.map] at h
  | ok out =>
    rw [hout] at h
    simp only [Except.map] at h
    injection h with h'
    subst h'
    exact recognizeWithTesseract_ok_props hout

/-! ### Helper lemmas: the best-strategy loop of the handler -/

theorem pickFold_some :
    ∀ (outs : List (Except String OcrResult)) (acc : Option OcrResult × Rat) (o : OcrResult),
      (outs.foldl pickStep acc).1 = some o → acc.1 = some o ∨ Except.ok o ∈ outs := by
  intro outs
  induction outs with
  | nil => intro acc o h; exact Or.inl h
  | cons x xs ih =>
    intro acc o h
    rw [List.foldl_cons] at h
    rcases ih (pickStep acc x) o h with h' | h'
    · cases x with
      | error e => exact Or.inl h'
      | ok res =>
        replace h' :
            (if acc.2 < res.confidence then ((some res : Option OcrResult), res.confidence)
             else acc).1 = some o := h'
        by_cases hc : acc.2 < res.confidence
        · rw [if_pos hc] at h'
          have : res = o := by simpa using h'
          exact Or.inr (this ▸ List.mem_cons_self _ _)
        · rw [if_neg hc] at h'
          exact Or.inl h'
    · exact Or.inr (List.mem_cons_of_mem _ h')

theorem pickBestRendering_mem {outs : List (Except String OcrResult)} {o : OcrResult}
    (h : pickBestRendering outs = some o) : Except.ok o ∈ outs := by
  rcases pickFold_some outs (none, 0) o h with h' | h'
  · simp at h'
  · exact h'

theorem pickFold_all_error :
    ∀ (outs : List (Except String OcrResult)) (acc : Option OcrResult × Rat),
      (∀ o ∈ outs, ∃ e, o = .error e) → outs.foldl pickStep acc = acc := by
  intro outs
  induction outs with
  | nil => intro acc _; rfl
  | cons x xs ih =>
    intro acc h
    rw [List.foldl_cons]
    obtain ⟨e, he⟩ := h x (List.mem_cons_self _ _)
    subst he
    exact ih acc fun o ho => h o (List.mem_cons_of_mem _ ho)

theorem pickBestRendering_none_of_errors {outs : List (Except String OcrResult)}
    (h : ∀ o ∈ outs, ∃ e, o = .error e) : pickBestRendering outs = none := by
  unfold pickBestRendering
  rw [pickFold_all_error outs _ h]

/-! ### Helper lemmas: smart correction and length validation -/

theorem smartCorrect_cases (s : String) (alts : List String) :
    smartCorrect s alts = s ∨ smartCorrect s alts = jsReplaceAll 'W' 'V' s := by
  unfold smartCorrect
  by_cases h1 : (jsIncludes s 'W' && s.length == 4) = true
  · rw [if_pos h1]
    by_cases h2 : alts.contains (jsReplaceAll 'W' 'V' s) = true
    · rw [if_pos h2]
      exact Or.inr rfl
    · rw [if_neg h2]
      exact Or.inl rfl
  · rw [if_neg h1]
    exact Or.inl rfl

theorem length_smartCorrect (s : String) (alts : List String) :
    (smartCorrect s alts).length = s.length := by
  rcases smartCorrect_cases s alts with h | h <;> rw [h]
  exact length_jsReplaceAll 'W' 'V' s

theorem all_token_smartCorrect {s : String} (hs : s.data.all isTokenChar = true)
    (alts : List String) : (smartCorrect s alts).data.all isTokenChar = true := by
  rcases smartCorrect_cases s alts with h | h <;> rw [h]
  · exact hs
  · exact all_token_jsReplaceAll (by decide) hs

theorem smartCorrect_spec (s : String) (alts : List String) :
    ((jsIncludes s 'W' = true ∧ s.length = 4 ∧ jsReplaceAll 'W' 'V' s ∈ alts) →
        smartCorrect s alts = jsReplaceAll 'W' 'V' s) ∧
    (¬(jsIncludes s 'W' = true ∧ s.length = 4 ∧ jsReplaceAll 'W' 'V' s ∈ alts) →
        smartCorrect s alts = s) := by
  constructor
  · rintro ⟨h1, h2, h3⟩
    unfold smartCorrect
    rw [if_pos (by simp [h1, h2]), if_pos (by simpa using h3)]
  · intro hneg
    unfold smartCorrect
    by_cases h1 : (jsIncludes s 'W' && s.length == 4) = true
    · rw [if_pos h1]
      have h1' : jsIncludes s 'W' = true ∧ s.length = 4 := by simpa using h1
      by_cases h2 : alts.contains (jsReplaceAll 'W' 'V' s) = true
      · exact absurd ⟨h1'.1, h1'.2, by simpa using h2⟩ hneg
      · rw [if_neg h2]
    · rw [if_neg h1]

theorem validateLength_of_inrange {s : String} (h3 : 3 ≤ s.length) (h6 : s.length ≤ 6) :
    validateLength s = .ok s := by
  unfold validateLength
  rw [if_neg]
  omega

/-! ### Helper lemmas: the whole request pipeline -/

theorem solve_ok {rs : List (Except String (List StrategyAttempt))} {sol : Solution}
    (h : solve rs = .ok sol) :
    ∃ best, pickBestRendering (rs.map runRendering) = some best ∧
      sol.text = smartCorrect best.solution best.alternatives ∧
      sol.confidence = best.confidence ∧
      sol.alternatives = best.alternatives ∧
      3 ≤ best.solution.length ∧ best.solution.length ≤ 4 ∧
      best.solution.data.all isTokenChar = true ∧
      best.alternatives = generateCorrectionVariants best.solution := by
  unfold solve at h
  cases hpick : pickBestRendering (rs.map runRendering) with
  | none => rw [hpick] at h; simp at h
  | some best =>
    rw [hpick] at h
    have hok := pickBestRendering_mem hpick
    obtain ⟨r, hr, hrr⟩ := List.mem_map.1 hok
    have hprops : 3 ≤ best.solution.length ∧ best.solution.length ≤ 4 ∧
        best.solution.data.all isTokenChar = true ∧
        best.alternatives = generateCorrectionVariants best.solution := by
      cases r with
      | error e => simp [runRendering, Except.bind] at hrr
      | ok atts =>
        have hrt : recognizeText atts = .ok best := by
          simpa [runRendering, Except.bind] using hrr
        exact recognizeText_ok_props hrt
    have hval : validateLength (smartCorrect best.solution best.alternatives) =
        .ok (smartCorrect best.solution best.alternatives) := by
      apply validateLength_of_inrange <;> rw [length_smartCorrect] <;> omega
    replace h :
        (match validateLength (smartCorrect best.solution best.alternatives) with
          | Except.ok finalText =>
            Except.ok (⟨finalText, best.confidence, best.alternatives⟩ : Solution)
          | Except.error e => Except.error e) = Except.ok sol := h
    rw [hval] at h
    injection h with h'
    subst h'
    exact ⟨best, rfl, rfl, rfl, rfl, hprops⟩

/-! ### Helper lemmas: failed attempts are absent results -/

theorem collectResults_append (l1 l2 : List StrategyAttempt) :
    collectResults (l1 ++ l2) = collectResults l1 ++ collectResults l2 := by
  unfold collectResults
  exact List.filterMap_append l1 l2 _

theorem collectResults_cons_failed (n : String) (l : List StrategyAttempt) :
    collectResults (⟨n, none⟩ :: l) = collectResults l := by
  unfold collectResults
  rw [List.filterMap_cons_none]
  rfl

theorem collectResults_cons_short {r : RecognitionResult} (n : String)
    (h : (cleanRawText r.text).length < 3) (l : List StrategyAttempt) :
    collectResults (⟨n, some r⟩ :: l) = collectResults l := by
  unfold collectResults
  rw [List.filterMap_cons_none]
  show ((some r).bind fun rr =>
    if 3 ≤ (cleanRawText rr.text).length
    then some (⟨cleanRawText rr.text, rr.confidence, n⟩ : OCRCandidate) else none) = none
  rw [Option.some_bind, if_neg]
  omega

theorem recognizeWithTesseract_congr {a1 a2 : List StrategyAttempt}
    (h : collectResults a1 = collectResults a2) :
    recognizeWithTesseract a1 = recognizeWithTesseract a2 := by
  unfold recognizeWithTesseract
  rw [h]

theorem pickBestRendering_skip_error (e : String) (o1 o2 : List (Except String OcrResult)) :
    pickBestRendering (o1 ++ .error e :: o2) = pickBestRendering (o1 ++ o2) := by
  unfold pickBestRendering
  rw [List.foldl_append, List.foldl_append, List.foldl_cons]
  rfl

theorem solve_skip_error (e : String) (rs1 rs2 : List (Except String (List StrategyAttempt))) :
    solve (rs1 ++ .error e :: rs2) = solve (rs1 ++ rs2) := by
  unfold solve
  rw [List.map_append, List.map_cons, List.map_append,
    show runRendering (.error e) = Except.error e from rfl, pickBestRendering_skip_error]

theorem collectResults_nil_of_short {atts : List StrategyAttempt}
    (h : ∀ a ∈ atts, ∀ res, a.result = some res → (cleanRawText res.text).length < 3) :
    collectResults atts = [] := by
  unfold collectResults
  rw [List.filterMap_eq_nil_iff]
  intro a ha
  cases hr : a.result with
  | none => rfl
  | some res =>
    rw [Option.some_bind]
    show (if 3 ≤ (cleanRawText res.text).length
      then some (⟨cleanRawText res.text, res.confidence, a.name⟩ : OCRCandidate) else none) = none
    rw [if_neg]
    have := h a ha res hr
    omega

theorem recognizeText_error_of_short {atts : List StrategyAttempt}
    (h : ∀ a ∈ atts, ∀ res, a.result = some res → (cleanRawText res.text).length < 3) :
    recognizeText atts = .error "No valid OCR results" := by
  unfold recognizeText recognizeWithTesseract
  rw [collectResults_nil_of_short h]
  rfl

theorem solve_error_of_all_short {rs : List (Except String (List StrategyAttempt))}
    (h : ∀ r ∈ rs, ∀ atts, r = .ok atts →
      ∀ a ∈ atts, ∀ res, a.result = some res → (cleanRawText res.text).length < 3) :
    solve rs = .error "All preprocessing strategies failed" := by
  unfold solve
  rw [pickBestRendering_none_of_errors]
  intro o ho
  obtain ⟨r, hr, hrr⟩ := List.mem_map.1 ho
  cases r with
  | error e => exact ⟨e, by rw [← hrr]; rfl⟩
  | ok atts =>
    refine ⟨"No valid OCR results", ?_⟩
    rw [← hrr]
    show recognizeText atts = _
    exact recognizeText_error_of_short (h _ hr atts rfl)

/-! ### Claim C1 -/

/-- Claim C1 counterexample: the claim says the winner is selected by
exact-length-first ranking over the flattened candidate set of the whole
request. With a length-5 candidate at confidence 90 in one rendering and
an exact-length-4 candidate at confidence 50 in another, the spec-side
selector over the flattened set picks the length-4 candidate WXYZ, but the
pipeline compares per-rendering winners by confidence alone and answers
ABCD, derived from the length-5 candidate. -/
theorem C1_counterexample :
    flattenedCandidates
        [.ok [⟨"LINE", some ⟨"ABCDE", 90⟩⟩], .ok [⟨"LINE", some ⟨"WXYZ", 50⟩⟩]] =
      [⟨"ABCDE", 90, "LINE"⟩, ⟨"WXYZ", 50, "LINE"⟩] ∧
    specSelectAcrossRequest
        [.ok [⟨"LINE", some ⟨"ABCDE", 90⟩⟩], .ok [⟨"LINE", some ⟨"WXYZ", 50⟩⟩]] =
      some ⟨"WXYZ", 50, "LINE"⟩ ∧
    solve [.ok [⟨"LINE", some ⟨"ABCDE", 90⟩⟩], .ok [⟨"LINE", some ⟨"WXYZ", 50⟩⟩]] =
      .ok ⟨"ABCD", 90, ["ABCD"]⟩ ∧
    ("ABCD" : String) ≠ "WXYZ" := by
  decide

/-- Claim C1 (amended): exact-length-first ranking holds within one
rendering only. For the candidates collected from the strategies of a
single rendering, the selected candidate is a surviving candidate, any
surviving candidate of exact length 4 forces the winner to have exact
length 4, and among candidates of equal length-preference the winner has
the highest confidence. -/
theorem C1_per_rendering_ranking (attempts : List StrategyAttempt) (best : OCRCandidate)
    (h : selectBest (collectResults attempts) = some best) :
    best ∈ collectResults attempts ∧
    (∀ d ∈ collectResults attempts, is4 d = true → is4 best = true) ∧
    (∀ d ∈ collectResults attempts, is4 d = is4 best →
      d.confidence ≤ best.confidence) := by
  have hsm := sortByRank_head_max (collectResults attempts) best h
  refine ⟨hsm.1, ?_, ?_⟩
  · intro d hd h4
    have hb := hsm.2 d hd
    unfold betterB at hb
    cases h4b : is4 best
    · exfalso
      rw [h4, h4b] at hb
      simp at hb
    · rfl
  · intro d hd h4
    have hb := hsm.2 d hd
    unfold betterB at hb
    rw [h4] at hb
    simp at hb
    exact hb

/-- Claim C1 witness: the amended theorem applied to the spec scenario
AT1K versus AT1K9: within one rendering the exact-length candidate beats
the longer, higher-confidence one. -/
theorem C1_witness :
    (⟨"AT1K", 60, "WORD"⟩ : OCRCandidate) ∈
      collectResults [⟨"LINE", some ⟨"AT1K9", 92⟩⟩, ⟨"WORD", some ⟨"AT1K", 60⟩⟩] :=
  (C1_per_rendering_ranking [⟨"LINE", some ⟨"AT1K9", 92⟩⟩, ⟨"WORD", some ⟨"AT1K", 60⟩⟩]
    ⟨"AT1K", 60, "WORD"⟩ (by decide)).1

/-! ### Claim C2 -/

/-- Claim C2 counterexample: when every attempt produces cleaned text
shorter than 3, solve does not return the empty Solution; it throws, the
handler answers with an error (HTTP 500). -/
theorem C2_counterexample :
    solve [.ok [⟨"LINE", some ⟨"xy", 77⟩⟩]] = .error "All preprocessing strategies failed" ∧
    solve [.ok [⟨"LINE", some ⟨"xy", 77⟩⟩]] ≠ .ok ⟨"", 0, []⟩ := by
  decide

/-- Claim C2 (amended): when every recognition attempt across every
rendering and strategy produces cleaned text shorter than 3, every
rendering throws `No valid OCR results`, and solve propagates the failure
as the error `All preprocessing strategies failed` (an HTTP 500), not as
an empty Solution. -/
theorem C2_all_short_is_error (rs : List (Except String (List StrategyAttempt)))
    (h : ∀ r ∈ rs, ∀ atts, r = .ok atts →
      ∀ a ∈ atts, ∀ res, a.result = some res → (cleanRawText res.text).length < 3) :
    solve rs = .error "All preprocessing strategies failed" :=
  solve_error_of_all_short h

/-- Claim C2 witness: the amended theorem applied to one rendering whose
only attempt reads two characters and one rendering whose preprocessing
threw. -/
theorem C2_witness :
    solve [.ok [⟨"LINE", some ⟨"ab", 10⟩⟩], .error "decode"] =
      .error "All preprocessing strategies failed" :=
  C2_all_short_is_error [.ok [⟨"LINE", some ⟨"ab", 10⟩⟩], .error "decode"] (by
    intro r hr atts hra a ha res hres
    subst hra
    simp only [List.mem_cons, List.not_mem_nil, or_false] at hr
    rcases hr with hr | hr
    · injection hr with h1
      subst h1
      simp only [List.mem_cons, List.not_mem_nil, or_false] at ha
      subst ha
      injection hres with h2
      subst h2
      decide
    · cases hr)

/-! ### Claim C3 -/

/-- Claim C3 counterexample: the claim says only cleaned texts longer than
the maximum accepted length 6 are truncated, and texts within [3,6] are
kept whole. The winning candidate ABCDE has length 5, inside the accepted
range, yet the recognizer truncates it to its first 4 characters. -/
theorem C3_counterexample :
    recognizeWithTesseract [⟨"LINE", some ⟨"ABCDE", 80⟩⟩] = .ok ⟨"ABCD", ["ABCD"], 80⟩ ∧
    selectBest (collectResults [⟨"LINE", some ⟨"ABCDE", 80⟩⟩]) =
      some ⟨"ABCDE", 80, "LINE"⟩ ∧
    ("ABCDE" : String).length ≤ 6 ∧
    ("ABCD" : String) ≠ "ABCDE" := by
  decide

/-- Claim C3 (amended): the truncation threshold is the expected token
length 4, not the maximum accepted length 6. When the recognizer succeeds,
the final text is the first 4 characters of the top-ranked candidate text
whenever that text is longer than 4, and the candidate text unchanged
whenever its length is at most 4. -/
theorem C3_truncation_at_four (attempts : List StrategyAttempt) (out : OcrOutcome)
    (h : recognizeWithTesseract attempts = .ok out) :
    ∃ best, selectBest (collectResults attempts) = some best ∧
      (4 < best.text.length → out.text = (⟨best.text.data.take 4⟩ : String)) ∧
      (best.text.length ≤ 4 → out.text = best.text) := by
  obtain ⟨best, hsel, _, _, htext, _, _⟩ := recognizeWithTesseract_ok h
  refine ⟨best, hsel, ?_, ?_⟩
  · intro h4
    rw [htext]
    unfold truncate4
    rw [if_pos h4]
  · intro h4
    rw [htext]
    unfold truncate4
    rw [if_neg (by omega)]

/-- Claim C3 witness: the amended theorem applied to a single length-6
candidate, which is truncated to its first 4 characters. -/
theorem C3_witness :
    ∃ best, selectBest (collectResults [⟨"WORD", some ⟨"QRSTUV", 70⟩⟩]) = some best ∧
      (4 < best.text.length →
        (⟨"QRST", ["QRST"], 70⟩ : OcrOutcome).text = (⟨best.text.data.take 4⟩ : String)) ∧
      (best.text.length ≤ 4 → (⟨"QRST", ["QRST"], 70⟩ : OcrOutcome).text = best.text) :=
  C3_truncation_at_four [⟨"WORD", some ⟨"QRSTUV", 70⟩⟩] ⟨"QRST", ["QRST"], 70⟩ (by decide)

/-! ### Claim C4 -/

/-- Claim C4: when the winning text contains W, has length exactly 4, and
its all-W-to-V substitution is listed among the generated alternatives,
the final Solution text is the substituted form; in every other case the
winning text is returned unchanged. -/
theorem C4_smart_correction (rs : List (Except String (List StrategyAttempt)))
    (sol : Solution) (best : OcrResult)
    (hpick : pickBestRendering (rs.map runRendering) = some best)
    (h : solve rs = .ok sol) :
    ((jsIncludes best.solution 'W' = true ∧ best.solution.length = 4 ∧
        jsReplaceAll 'W' 'V' best.solution ∈ best.alternatives) →
      sol.text = jsReplaceAll 'W' 'V' best.solution) ∧
    (¬(jsIncludes best.solution 'W' = true ∧ best.solution.length = 4 ∧
        jsReplaceAll 'W' 'V' best.solution ∈ best.alternatives) →
      sol.text = best.solution) := by
  obtain ⟨best1, hpick1, htext, _, _, _, _, _, _⟩ := solve_ok h
  rw [hpick] at hpick1
  injection hpick1 with hb
  subst hb
  constructor
  · intro hc
    rw [htext]
    exact (smartCorrect_spec _ _).1 hc
  · intro hc
    rw [htext]
    exact (smartCorrect_spec _ _).2 hc

/-- Claim C4 witness: the spec scenario W0RD. The winner W0RD contains W,
has length 4 and its substitution V0RD is among the alternatives, so the
final text is V0RD. -/
theorem C4_witness :
    (⟨"V0RD", 88, ["W0RD", "V0RD", "WORD"]⟩ : Solution).text =
      jsReplaceAll 'W' 'V' "W0RD" :=
  (C4_smart_correction [.ok [⟨"LINE", some ⟨"W0RD", 88⟩⟩]]
    ⟨"V0RD", 88, ["W0RD", "V0RD", "WORD"]⟩ ⟨"W0RD", ["W0RD", "V0RD", "WORD"], 88⟩
    (by decide) (by decide)).1 (by decide)

/-! ### Claim C5 -/

/-- Claim C5 counterexample: the claim says solve returns a Solution for
every valid decodable image. On a decodable image whose only readable
attempt yields two characters, solve returns an error instead of any
Solution. -/
theorem C5_counterexample :
    solve [.ok [⟨"LINE", some ⟨"AB", 99⟩⟩], .error "preprocess threw"] =
      .error "All preprocessing strategies failed" := by
  decide

/-- Claim C5 (amended): solve always terminates (it is a total function),
and whenever it returns a Solution the text matches the character class
A-Z0-9 and its length lies within the accepted range [3,6]; the text is
never empty. For some valid decodable images solve reports an error
instead of returning a Solution. -/
theorem C5_solution_invariants (rs : List (Except String (List StrategyAttempt)))
    (sol : Solution) (h : solve rs = .ok sol) :
    sol.text.data.all isTokenChar = true ∧ 3 ≤ sol.text.length ∧ sol.text.length ≤ 6 := by
  obtain ⟨best, _, htext, _, _, h3, h4, htok, _⟩ := solve_ok h
  refine ⟨?_, ?_, ?_⟩
  · rw [htext]
    exact all_token_smartCorrect htok _
  · rw [htext, length_smartCorrect]
    omega
  · rw [htext, length_smartCorrect]
    omega

/-- Claim C5 witness: the amended theorem applied to a successful request
whose answer is K7Q2. -/
theorem C5_witness :
    ("K7Q2" : String).data.all isTokenChar = true ∧
      3 ≤ ("K7Q2" : String).length ∧ ("K7Q2" : String).length ≤ 6 :=
  C5_solution_invariants [.ok [⟨"RAW", some ⟨"k7q2", 65⟩⟩]] ⟨"K7Q2", 65, ["K7Q2"]⟩
    (by decide)

/-! ### Claim C6 -/

/-- Claim C6: a single failed (rendering, strategy) attempt is an absent
result for that pair only. Inserting a strategy attempt whose primitive
threw, or whose output cleans to fewer than 3 characters, anywhere into a
rendering leaves the recognizer outcome unchanged; inserting a rendering
whose preprocessing threw anywhere into the request leaves the solve
outcome unchanged. No individual failure is surfaced to the caller. -/
theorem C6_attempt_failure_isolated :
    (∀ (n : String) (l1 l2 : List StrategyAttempt),
      recognizeWithTesseract (l1 ++ ⟨n, none⟩ :: l2) = recognizeWithTesseract (l1 ++ l2)) ∧
    (∀ (n : String) (r : RecognitionResult) (l1 l2 : List StrategyAttempt),
      (cleanRawText r.text).length < 3 →
      recognizeWithTesseract (l1 ++ ⟨n, some r⟩ :: l2) = recognizeWithTesseract (l1 ++ l2)) ∧
    (∀ (e : String) (rs1 rs2 : List (Except String (List StrategyAttempt))),
      solve (rs1 ++ .error e :: rs2) = solve (rs1 ++ rs2)) := by
  refine ⟨?_, ?_, ?_⟩
  · intro n l1 l2
    apply recognizeWithTesseract_congr
    rw [collectResults_append, collectResults_cons_failed, collectResults_append]
  · intro n r l1 l2 h
    apply recognizeWithTesseract_congr
    rw [collectResults_append, collectResults_cons_short n h, collectResults_append]
  · intro e rs1 rs2
    exact solve_skip_error e rs1 rs2

/-- Claim C6 witness: dropping an attempt whose raw output cleans to a
single character does not change the recognizer outcome. -/
theorem C6_witness :
    recognizeWithTesseract ([⟨"LINE", some ⟨"GHJK", 40⟩⟩] ++ ⟨"WORD", some ⟨"z!", 95⟩⟩ :: []) =
      recognizeWithTesseract ([⟨"LINE", some ⟨"GHJK", 40⟩⟩] ++ []) :=
  C6_attempt_failure_isolated.2.1 "WORD" ⟨"z!", 95⟩ [⟨"LINE", some ⟨"GHJK", 40⟩⟩] []
    (by decide)

/-! ### Claim C7 -/

/-- Claim C7: the alternatives of every Solution are well formed: no
duplicates, never the empty string, every entry has the same length as the
final text, and every entry contains only the characters A-Z0-9. -/
theorem C7_alternatives_wellformed (rs : List (Except String (List StrategyAttempt)))
    (sol : Solution) (h : solve rs = .ok sol) :
    sol.alternatives.Nodup ∧ ("" : String) ∉ sol.alternatives ∧
      ∀ v ∈ sol.alternatives, v.length = sol.text.length ∧
        v.data.all isTokenChar = true := by
  obtain ⟨best, _, htext, _, halts, h3, _, htok, hgen⟩ := solve_ok h
  rw [halts, hgen]
  refine ⟨nodup_generateCorrectionVariants _, ?_, ?_⟩
  · intro hmem
    have hlen := length_mem_generateCorrectionVariants hmem
    have h0 : ("" : String).length = 0 := rfl
    omega
  · intro v hv
    constructor
    · rw [htext, length_smartCorrect]
      exact length_mem_generateCorrectionVariants hv
    · exact all_token_mem_generateCorrectionVariants htok hv

/-- Claim C7 witness: the alternatives of the Solution for winner M1X0,
namely M1X0, M1XO and MIX0, are pairwise distinct. -/
theorem C7_witness : (["M1X0", "M1XO", "MIX0"] : List String).Nodup :=
  (C7_alternatives_wellformed [.ok [⟨"BLOCK", some ⟨"M1X0", 45⟩⟩]]
    ⟨"M1X0", 45, ["M1X0", "M1XO", "MIX0"]⟩ (by decide)).1

/-! ### Claim C8 -/

/-- Claim C8: whenever the final text differs from the winning text (the
confusion corrector replaced it), the alternatives of the Solution contain
the original pre-substitution winning text. -/
theorem C8_original_kept_in_alternatives (rs : List (Except String (List StrategyAttempt)))
    (sol : Solution) (best : OcrResult)
    (hpick : pickBestRendering (rs.map runRendering) = some best)
    (h : solve rs = .ok sol) (_hdiff : sol.text ≠ best.solution) :
    best.solution ∈ sol.alternatives := by
  obtain ⟨best1, hpick1, _, _, halts, _, _, _, hgen⟩ := solve_ok h
  rw [hpick] at hpick1
  injection hpick1 with hb
  subst hb
  rw [halts, hgen]
  exact self_mem_generateCorrectionVariants _

/-- Claim C8 witness: the winner WX7Z is replaced by VX7Z, and WX7Z stays
listed among the alternatives. -/
theorem C8_witness : ("WX7Z" : String) ∈ (⟨"VX7Z", 91, ["WX7Z", "VX7Z"]⟩ : Solution).alternatives :=
  C8_original_kept_in_alternatives [.ok [⟨"LINE", some ⟨"WX7Z", 91⟩⟩]]
    ⟨"VX7Z", 91, ["WX7Z", "VX7Z"]⟩ ⟨"WX7Z", ["WX7Z", "VX7Z"], 91⟩
    (by decide) (by decide) (by decide)

/-! ### Claim C9 -/

/-- Claim C9: cleaning is idempotent. Every string consisting only of the
characters A-Z0-9 is left unchanged by cleaning, and cleaning twice equals
cleaning once on every string. -/
theorem C9_cleaning_idempotent :
    (∀ s : String, s.data.all isTokenChar = true → cleanRawText s = s) ∧
    (∀ s : String, cleanRawText (cleanRawText s) = cleanRawText s) := by
  constructor
  · exact fun s h => cleanRawText_of_token h
  · intro s
    exact cleanRawText_of_token (all_token_cleanRawText s)

/-- Claim C9 witness: cleaning the already-clean string A1B2 returns it
unchanged. -/
theorem C9_witness : cleanRawText "A1B2" = "A1B2" :=
  C9_cleaning_idempotent.1 "A1B2" (by decide)

/-! ### Claim C10 -/

/-- Claim C10: every successful solve returns a text of length 3 or 4,
never 5 or 6: candidates shorter than 3 are discarded, longer winners are
cut to their first 4 characters, and the smart correction preserves
length. -/
theorem C10_final_length_three_or_four (rs : List (Except String (List StrategyAttempt)))
    (sol : Solution) (h : solve rs = .ok sol) :
    sol.text.length = 3 ∨ sol.text.length = 4 := by
  obtain ⟨best, _, htext, _, _, h3, h4, _, _⟩ := solve_ok h
  rw [htext, length_smartCorrect]
  omega

/-- Claim C10 witness: a raw reading of 7 characters is answered with its
first 4 characters, PQRS. -/
theorem C10_witness : ("PQRS" : String).length = 3 ∨ ("PQRS" : String).length = 4 :=
  C10_final_length_three_or_four [.ok [⟨"LINE", some ⟨"PQRSTUV", 55⟩⟩]]
    ⟨"PQRS", 55, ["PQRS"]⟩ (by decide)
